import Mathlib

/-!
Verification of the leveldb key-format and arena subsystem.

Byte strings (C++ std::string / Slice contents) are modelled as `List Nat`,
where a well-formed byte string has every element below 256.  Machine
integers are modelled as `Nat` with explicit truncation where the code
truncates.  The definitions below are transcribed from:
  - src/unnamed/part_000            (db/dbformat.h)
  - src/util/comparator.cc          (comparator.cc, arena.cc, options.cc)
Function bodies that live in files of this repository outside the provided
sources (dbformat.cc, util/coding.h) are modelled from the specification and
marked as such in their doc comments.
-/

namespace LevelDB

/-- A well-formed byte string: every element is a byte value. -/
def isBytes (l : List Nat) : Prop := ∀ b ∈ l, b < 256

instance (l : List Nat) : Decidable (isBytes l) :=
  List.decidableBAll _ l

/-- Models Slice::compare, i.e. memcmp over the common length and then the
length difference, as used by BytewiseComparatorImpl::Compare
(src/util/comparator.cc lines 29-31): unsigned lexicographic byte
comparison.  Returns -1, 0 or 1. -/
def bytewiseCompare : List Nat → List Nat → Int
  | [], [] => 0
  | [], _ :: _ => -1
  | _ :: _, [] => 1
  | a :: as, b :: bs =>
    if a < b then -1 else if b < a then 1 else bytewiseCompare as bs

/-- The diff_index computed by the while loop in
BytewiseComparatorImpl::FindShortestSeparator (src/util/comparator.cc
lines 37-45): the number of leading positions at which the two strings
agree, capped at the shorter length. -/
def commonPrefixLen : List Nat → List Nat → Nat
  | a :: as, b :: bs => if a = b then commonPrefixLen as bs + 1 else 0
  | [], _ => 0
  | _ :: _, [] => 0

/-- BytewiseComparatorImpl::FindShortestSeparator
(src/util/comparator.cc lines 33-63).  The uint8_t casts of the code are
rendered as reductions modulo 256. -/
def findShortestSeparator (start limit : List Nat) : List Nat :=
  let min_length := min start.length limit.length
  let diff_index := commonPrefixLen start limit
  if min_length ≤ diff_index then
    start
  else
    let diff_byte := start.getD diff_index 0 % 256
    if diff_byte < 0xff ∧ diff_byte + 1 < limit.getD diff_index 0 % 256 then
      start.take diff_index ++ [diff_byte + 1]
    else
      start

/-- BytewiseComparatorImpl::FindShortSuccessor (src/util/comparator.cc
lines 73-89): scan left to right; at the first byte that is not 0xff,
increment it and truncate the string there; a run of 0xff bytes is left
unchanged. -/
def findShortSuccessor : List Nat → List Nat
  | [] => []
  | b :: rest =>
    if b % 256 = 0xff then b :: findShortSuccessor rest
    else [b % 256 + 1]

/-- ValueType kTypeDeletion (src/unnamed/part_000 line 55). -/
def kTypeDeletion : Nat := 0x0

/-- ValueType kTypeValue, the highest defined operation code
(src/unnamed/part_000 line 56). -/
def kTypeValue : Nat := 0x1

/-- kMaxSequenceNumber (src/unnamed/part_000 line 80). -/
def kMaxSequenceNumber : Nat := (1 <<< 56) - 1

/-- Modelled from the spec: the little-endian fixed-64 decode primitive
(DecodeFixed64 of util/coding.h, which is not among the source files) —
the little-endian 64-bit value of the first eight bytes. -/
def decodeFixed64 (l : List Nat) : Nat :=
  l.getD 0 0 + 2 ^ 8 * l.getD 1 0 + 2 ^ 16 * l.getD 2 0 + 2 ^ 24 * l.getD 3 0 +
    2 ^ 32 * l.getD 4 0 + 2 ^ 40 * l.getD 5 0 + 2 ^ 48 * l.getD 6 0 +
    2 ^ 56 * l.getD 7 0

/-- Modelled from the spec: the little-endian fixed-64 encode primitive
(PutFixed64 of util/coding.h, which is not among the source files) — the
eight little-endian bytes of a 64-bit word. -/
def putFixed64 (w : Nat) : List Nat :=
  [w % 2 ^ 8, w / 2 ^ 8 % 2 ^ 8, w / 2 ^ 16 % 2 ^ 8, w / 2 ^ 24 % 2 ^ 8,
   w / 2 ^ 32 % 2 ^ 8, w / 2 ^ 40 % 2 ^ 8, w / 2 ^ 48 % 2 ^ 8,
   w / 2 ^ 56 % 2 ^ 8]

/-- ParsedInternalKey (src/unnamed/part_000 lines 87-96).  The type field
holds the raw 8-bit code, since ParseInternalKey stores an unchecked cast
of any byte into it. -/
structure ParsedInternalKey where
  user_key : List Nat
  sequence : Nat
  type : Nat
deriving Repr, DecidableEq

/-- Modelled from the spec: AppendInternalKey (declared at
src/unnamed/part_000 line 104; its body lives in db/dbformat.cc, which is
not among the source files).  Per spec §4.1 it appends the user key
followed by the 8-byte little-endian value (sequence << 8) | tag. -/
def appendInternalKey (result : List Nat) (key : ParsedInternalKey) : List Nat :=
  result ++ key.user_key ++ putFixed64 ((key.sequence <<< 8) ||| key.type)

/-- InternalKeyEncodingLength (src/unnamed/part_000 lines 99-101). -/
def internalKeyEncodingLength (key : ParsedInternalKey) : Nat :=
  key.user_key.length + 8

/-- ParseInternalKey (src/unnamed/part_000 lines 200-210).  The C++
function mutates *result and returns a bool; here it returns the pair of
the bool and the (possibly updated) result record. -/
def parseInternalKey (internal_key : List Nat) (result : ParsedInternalKey) :
    Bool × ParsedInternalKey :=
  let n := internal_key.length
  if n < 8 then (false, result)
  else
    let num := decodeFixed64 (internal_key.drop (n - 8))
    let c := num &&& 0xff
    (decide (c ≤ kTypeValue),
     { sequence := num >>> 8, type := c,
       user_key := internal_key.take (n - 8) })

/-- ExtractUserKey (src/unnamed/part_000 lines 114-117): the internal key
without its last eight bytes. -/
def extractUserKey (internal_key : List Nat) : List Nat :=
  internal_key.take (internal_key.length - 8)

/-- The 8-byte trailing tag word of an internal key, as read by
ParseInternalKey. -/
def trailingWord (k : List Nat) : Nat :=
  decodeFixed64 (k.drop (k.length - 8))

/-- Sequence-number portion of the trailing word. -/
def seqOf (k : List Nat) : Nat := trailingWord k >>> 8

/-- Operation-tag portion of the trailing word. -/
def tagOf (k : List Nat) : Nat := trailingWord k &&& 0xff

/-- A valid internal key: at least eight bytes long, all elements bytes. -/
def validKey (k : List Nat) : Prop := 8 ≤ k.length ∧ isBytes k

instance (k : List Nat) : Decidable (validKey k) :=
  inferInstanceAs (Decidable (_ ∧ _))

/-- Modelled from the spec: InternalKeyComparator::Compare on encoded keys
(declared at src/unnamed/part_000 line 128; its body lives in
db/dbformat.cc, which is not among the source files).  Per spec §4.2 it
compares the user-key portions with the wrapped user comparator — here the
default bytewise comparator of src/util/comparator.cc — and on equal user
keys orders by decreasing sequence number, then by decreasing tag. -/
def internalCompare (a b : List Nat) : Int :=
  let r := bytewiseCompare (extractUserKey a) (extractUserKey b)
  if r = 0 then
    if seqOf b < seqOf a then -1
    else if seqOf a < seqOf b then 1
    else if tagOf b < tagOf a then -1
    else if tagOf a < tagOf b then 1
    else 0
  else r

/-- The InternalKey (user_key, sequence, type) constructor
(src/unnamed/part_000 lines 162-165): rep_ starts empty and
AppendInternalKey fills it. -/
def internalKeyMk (user_key : List Nat) (s t : Nat) : List Nat :=
  appendInternalKey [] ⟨user_key, s, t⟩

/-- InternalKey::SetFrom (src/unnamed/part_000 lines 185-188): rep_ is
cleared and refilled from the parsed key; the previous rep is discarded. -/
def internalKeySetFrom (_rep : List Nat) (p : ParsedInternalKey) : List Nat :=
  appendInternalKey [] p

/-- InternalKey::DecodeFrom (src/unnamed/part_000 lines 169-173): rep_ is
assigned the input bytes and the call reports whether rep_ is nonempty. -/
def internalKeyDecodeFrom (s : List Nat) : List Nat × Bool :=
  (s, !s.isEmpty)

/-- Arena block size (src/util/comparator.cc line 110, arena.cc). -/
def kBlockSize : Nat := 4096

/-- The arena's mutable fields (util/arena.h state as used by arena.cc):
the bump pointer is modelled as a numeric address, each allocated block as
an (address, size) pair. -/
structure ArenaState where
  alloc_ptr : Nat
  alloc_bytes_remaining : Nat
  blocks : List (Nat × Nat)
  memory_usage : Nat
deriving Repr, DecidableEq

/-- Arena::AllocateNewBlock (src/util/comparator.cc lines 181-193).  The
address handed back by the system allocator is passed in as newAddr;
ptrSize models sizeof(char*). -/
def allocateNewBlock (ptrSize : Nat) (st : ArenaState) (block_bytes newAddr : Nat) :
    Nat × ArenaState :=
  (newAddr,
   { st with blocks := st.blocks ++ [(newAddr, block_bytes)],
             memory_usage := st.memory_usage + (block_bytes + ptrSize) })

/-- Arena::AllocateFallback (src/util/comparator.cc lines 122-142). -/
def allocateFallback (ptrSize : Nat) (st : ArenaState) (bytes newAddr : Nat) :
    Nat × ArenaState :=
  if bytes > kBlockSize / 4 then
    allocateNewBlock ptrSize st bytes newAddr
  else
    let res := allocateNewBlock ptrSize st kBlockSize newAddr
    (res.1,
     { res.2 with alloc_ptr := res.1 + bytes,
                  alloc_bytes_remaining := kBlockSize - bytes })

/-- The alignment computed by Arena::AllocateAligned
(src/util/comparator.cc line 153): sizeof(void*) when larger than 8,
otherwise 8. -/
def alignOf (ptrSize : Nat) : Nat := if ptrSize > 8 then ptrSize else 8

/-- Arena::AllocateAligned (src/util/comparator.cc lines 151-178).  The
bitwise-and with align - 1 is transcribed as in the code. -/
def allocateAligned (ptrSize : Nat) (st : ArenaState) (bytes newAddr : Nat) :
    Nat × ArenaState :=
  let align := alignOf ptrSize
  let current_mod := st.alloc_ptr &&& (align - 1)
  let slop := if current_mod = 0 then 0 else align - current_mod
  let needed := bytes + slop
  if needed ≤ st.alloc_bytes_remaining then
    (st.alloc_ptr + slop,
     { st with alloc_ptr := st.alloc_ptr + needed,
               alloc_bytes_remaining := st.alloc_bytes_remaining - needed })
  else
    allocateFallback ptrSize st bytes newAddr

end LevelDB

namespace LevelDB

/-! ### Properties of the bytewise comparator -/

theorem bw_eq_zero_iff : ∀ a b : List Nat, bytewiseCompare a b = 0 ↔ a = b
  | [], [] => by simp [bytewiseCompare]
  | [], _ :: _ => by simp [bytewiseCompare]
  | _ :: _, [] => by simp [bytewiseCompare]
  | a :: as, b :: bs => by
    simp only [bytewiseCompare]
    split_ifs with h1 h2
    · refine ⟨fun h => absurd h (by decide), fun h => ?_⟩
      injection h with h _
      omega
    · refine ⟨fun h => absurd h (by decide), fun h => ?_⟩
      injection h with h _
      omega
    · have hab : a = b := by omega
      rw [bw_eq_zero_iff as bs]
      subst hab
      simp

theorem bw_self (l : List Nat) : bytewiseCompare l l = 0 :=
  (bw_eq_zero_iff l l).mpr rfl

theorem bw_neg : ∀ a b : List Nat, bytewiseCompare b a = -bytewiseCompare a b
  | [], [] => by simp [bytewiseCompare]
  | [], _ :: _ => by simp [bytewiseCompare]
  | _ :: _, [] => by simp [bytewiseCompare]
  | a :: as, b :: bs => by
    simp only [bytewiseCompare]
    split_ifs with h1 h2 <;>
      first
        | decide
        | (exfalso; omega)
        | exact bw_neg as bs

theorem bw_trans : ∀ a b c : List Nat,
    bytewiseCompare a b < 0 → bytewiseCompare b c < 0 → bytewiseCompare a c < 0
  | [], b, c => by
    intro h1 h2
    cases b with
    | nil => simp [bytewiseCompare] at h1
    | cons y ys =>
      cases c with
      | nil => simp [bytewiseCompare] at h2
      | cons z zs =>
        show (-1 : Int) < 0
        decide
  | _ :: _, [], c => by
    intro h1 _
    simp [bytewiseCompare] at h1
  | _ :: _, _ :: _, [] => by
    intro _ h2
    simp [bytewiseCompare] at h2
  | a :: as, b :: bs, c :: cs => by
    intro h1 h2
    simp only [bytewiseCompare] at h1 h2 ⊢
    split_ifs at h1 h2 ⊢ <;>
      first
        | decide
        | (exact absurd h1 (by decide))
        | (exact absurd h2 (by decide))
        | (exfalso; omega)
        | (exact bw_trans as bs cs h1 h2)

theorem bw_append_left : ∀ p a b : List Nat,
    bytewiseCompare (p ++ a) (p ++ b) = bytewiseCompare a b
  | [], _, _ => rfl
  | x :: p, a, b => by
    simp only [List.cons_append, bytewiseCompare, lt_self_iff_false, if_false]
    exact bw_append_left p a b

/-! ### Properties of the common-prefix length -/

theorem cpl_le_min : ∀ a b : List Nat,
    commonPrefixLen a b ≤ min a.length b.length
  | [], _ => by simp [commonPrefixLen]
  | _ :: _, [] => by simp [commonPrefixLen]
  | a :: as, b :: bs => by
    simp only [commonPrefixLen, List.length_cons]
    split_ifs with h
    · have := cpl_le_min as bs
      omega
    · omega

theorem cpl_take : ∀ a b : List Nat,
    a.take (commonPrefixLen a b) = b.take (commonPrefixLen a b)
  | [], b => by simp [commonPrefixLen]
  | _ :: _, [] => by simp [commonPrefixLen]
  | a :: as, b :: bs => by
    simp only [commonPrefixLen]
    split_ifs with h
    · subst h
      simp only [List.take_succ_cons, List.cons.injEq, true_and]
      exact cpl_take as bs
    · simp

theorem cpl_getD_ne : ∀ a b : List Nat,
    commonPrefixLen a b < min a.length b.length →
    a.getD (commonPrefixLen a b) 0 ≠ b.getD (commonPrefixLen a b) 0
  | [], b => by simp [commonPrefixLen]
  | _ :: _, [] => by simp [commonPrefixLen]
  | a :: as, b :: bs => by
    simp only [commonPrefixLen, List.length_cons]
    split_ifs with h
    · intro hlt
      simp only [List.getD_cons_succ]
      apply cpl_getD_ne as bs
      omega
    · intro _
      simpa using h

theorem cpl_append_right : ∀ (a r : List Nat),
    commonPrefixLen a (a ++ r) = a.length
  | [], r => by cases r <;> simp [commonPrefixLen]
  | a :: as, r => by
    simp [commonPrefixLen, cpl_append_right as r]

theorem cpl_append_left : ∀ (b r : List Nat),
    commonPrefixLen (b ++ r) b = b.length
  | [], r => by cases r <;> simp [commonPrefixLen]
  | b :: bs, r => by
    simp [commonPrefixLen, cpl_append_left bs r]

/-! ### Byte-string facts -/

theorem getD_eq_getElem (l : List Nat) (n : Nat) (h : n < l.length) :
    l.getD n 0 = l[n] := by
  simp [List.getD_eq_getElem?_getD, List.getElem?_eq_getElem h]

theorem isBytes_getD (l : List Nat) (hb : isBytes l) (n : Nat)
    (h : n < l.length) : l.getD n 0 < 256 := by
  rw [getD_eq_getElem l n h]
  exact hb _ (List.getElem_mem h)

theorem isBytes_take (l : List Nat) (hb : isBytes l) (n : Nat) :
    isBytes (l.take n) :=
  fun b hm => hb b (List.take_subset n l hm)

theorem isBytes_drop (l : List Nat) (hb : isBytes l) (n : Nat) :
    isBytes (l.drop n) :=
  fun b hm => hb b (List.drop_subset n l hm)

/-! ### Fixed-64 codec facts -/

theorem putFixed64_length (w : Nat) : (putFixed64 w).length = 8 := rfl

theorem decode_put (w : Nat) : decodeFixed64 (putFixed64 w) = w % 2 ^ 64 := by
  simp only [decodeFixed64, putFixed64, List.getD_cons_zero, List.getD_cons_succ]
  omega

theorem put_decode (l : List Nat) (h8 : l.length = 8) (hb : isBytes l) :
    putFixed64 (decodeFixed64 l) = l := by
  rcases l with _ | ⟨b0, l⟩; · simp at h8
  rcases l with _ | ⟨b1, l⟩; · simp at h8
  rcases l with _ | ⟨b2, l⟩; · simp at h8
  rcases l with _ | ⟨b3, l⟩; · simp at h8
  rcases l with _ | ⟨b4, l⟩; · simp at h8
  rcases l with _ | ⟨b5, l⟩; · simp at h8
  rcases l with _ | ⟨b6, l⟩; · simp at h8
  rcases l with _ | ⟨b7, l⟩; · simp at h8
  rcases l with _ | ⟨b8, l⟩
  · simp only [isBytes, List.mem_cons, List.not_mem_nil, or_false,
      forall_eq_or_imp, forall_eq] at hb
    obtain ⟨h0, h1, h2, h3, h4, h5, h6, h7⟩ := hb
    simp only [putFixed64, decodeFixed64, List.getD_cons_zero, List.getD_cons_succ,
      List.cons.injEq, and_true]
    refine ⟨?_, ?_, ?_, ?_, ?_, ?_, ?_, ?_⟩ <;> omega
  · simp at h8

theorem shiftLeft_or_eq_add (s t : Nat) (ht : t < 2 ^ 8) :
    (s <<< 8) ||| t = 2 ^ 8 * s + t := by
  rw [Nat.shiftLeft_eq, Nat.mul_comm]
  exact (Nat.mul_add_lt_is_or ht s).symm

theorem word_and_255 (w : Nat) : w &&& 0xff = w % 2 ^ 8 := by
  have h := Nat.and_pow_two_sub_one_eq_mod w 8
  norm_num at h ⊢
  exact h

end LevelDB

namespace LevelDB

/-! ### Properties of the internal-key comparator -/

theorem ic_lt_iff (a b : List Nat) :
    internalCompare a b < 0 ↔
      (bytewiseCompare (extractUserKey a) (extractUserKey b) < 0
       ∨ (extractUserKey a = extractUserKey b
          ∧ (seqOf b < seqOf a ∨ (seqOf a = seqOf b ∧ tagOf b < tagOf a)))) := by
  by_cases hr : bytewiseCompare (extractUserKey a) (extractUserKey b) = 0
  · have huk : extractUserKey a = extractUserKey b := (bw_eq_zero_iff _ _).mp hr
    simp only [internalCompare]
    rw [if_pos hr, hr]
    simp only [lt_self_iff_false, false_or, huk, eq_self_iff_true, true_and]
    split_ifs with h1 h2 h3 h4
    · exact ⟨fun _ => Or.inl h1, fun _ => by decide⟩
    · exact ⟨fun hx => absurd hx (by decide), fun hx => by omega⟩
    · exact ⟨fun _ => Or.inr ⟨by omega, h3⟩, fun _ => by decide⟩
    · exact ⟨fun hx => absurd hx (by decide), fun hx => by omega⟩
    · exact ⟨fun hx => absurd hx (by decide), fun hx => by omega⟩
  · simp only [internalCompare, if_neg hr]
    constructor
    · exact Or.inl
    · intro hx
      rcases hx with hx | ⟨huk, -⟩
      · exact hx
      · exfalso
        apply hr
        rw [huk]
        exact bw_self _

theorem ic_zero_iff (a b : List Nat) :
    internalCompare a b = 0 ↔
      (extractUserKey a = extractUserKey b
       ∧ seqOf a = seqOf b ∧ tagOf a = tagOf b) := by
  by_cases hr : bytewiseCompare (extractUserKey a) (extractUserKey b) = 0
  · have huk : extractUserKey a = extractUserKey b := (bw_eq_zero_iff _ _).mp hr
    simp only [internalCompare]
    rw [if_pos hr]
    simp only [huk, eq_self_iff_true, true_and]
    split_ifs with h1 h2 h3 h4
    · exact ⟨fun hx => absurd hx (by decide), fun hx => by omega⟩
    · exact ⟨fun hx => absurd hx (by decide), fun hx => by omega⟩
    · exact ⟨fun hx => absurd hx (by decide), fun hx => by omega⟩
    · exact ⟨fun hx => absurd hx (by decide), fun hx => by omega⟩
    · exact ⟨fun _ => ⟨by omega, by omega⟩, fun _ => rfl⟩
  · simp only [internalCompare, if_neg hr]
    constructor
    · intro hx
      exact absurd hx hr
    · rintro ⟨huk, -, -⟩
      exfalso
      apply hr
      rw [huk]
      exact bw_self _

theorem ic_neg (a b : List Nat) :
    internalCompare b a = -internalCompare a b := by
  have hswap := bw_neg (extractUserKey a) (extractUserKey b)
  by_cases hr : bytewiseCompare (extractUserKey a) (extractUserKey b) = 0
  · have hr' : bytewiseCompare (extractUserKey b) (extractUserKey a) = 0 := by
      rw [hswap, hr]
      decide
    simp only [internalCompare, if_pos hr, if_pos hr']
    split_ifs <;> first | decide | (exfalso; omega)
  · have hr' : ¬bytewiseCompare (extractUserKey b) (extractUserKey a) = 0 := by
      rw [hswap]
      simpa using hr
    simp only [internalCompare, if_neg hr, if_neg hr']
    exact hswap

theorem key_ext (a b : List Nat) (ha : validKey a) (hb : validKey b)
    (huk : extractUserKey a = extractUserKey b)
    (hseq : seqOf a = seqOf b) (htag : tagOf a = tagOf b) : a = b := by
  obtain ⟨ha8, hab⟩ := ha
  obtain ⟨hb8, hbb⟩ := hb
  have hworda : trailingWord a = 2 ^ 8 * seqOf a + tagOf a := by
    unfold seqOf tagOf
    rw [Nat.shiftRight_eq_div_pow, word_and_255]
    omega
  have hwordb : trailingWord b = 2 ^ 8 * seqOf b + tagOf b := by
    unfold seqOf tagOf
    rw [Nat.shiftRight_eq_div_pow, word_and_255]
    omega
  have hword : trailingWord a = trailingWord b := by
    rw [hworda, hwordb, hseq, htag]
  have la : (a.drop (a.length - 8)).length = 8 := by
    rw [List.length_drop]
    omega
  have lb : (b.drop (b.length - 8)).length = 8 := by
    rw [List.length_drop]
    omega
  have ra := put_decode (a.drop (a.length - 8)) la (isBytes_drop a hab _)
  have rb := put_decode (b.drop (b.length - 8)) lb (isBytes_drop b hbb _)
  have hdrop : a.drop (a.length - 8) = b.drop (b.length - 8) := by
    rw [← ra, ← rb]
    show putFixed64 (trailingWord a) = putFixed64 (trailingWord b)
    rw [hword]
  have hsplit : extractUserKey a ++ a.drop (a.length - 8)
      = extractUserKey b ++ b.drop (b.length - 8) := by
    rw [huk, hdrop]
  simpa [extractUserKey, List.take_append_drop] using hsplit

end LevelDB

namespace LevelDB

/-- C5: For byte strings start < limit in unsigned bytewise order,
FindShortestSeparator leaves a result r with start <= r < limit and
len(r) <= len(start); when one of the two strings is a prefix of the
other, start is left unchanged. -/
theorem findShortestSeparator_spec (start limit : List Nat)
    (hs : isBytes start) (hl : isBytes limit)
    (hlt : bytewiseCompare start limit < 0) :
    (bytewiseCompare start (findShortestSeparator start limit) ≤ 0
     ∧ bytewiseCompare (findShortestSeparator start limit) limit < 0
     ∧ (findShortestSeparator start limit).length ≤ start.length)
    ∧ (((∃ r, limit = start ++ r) ∨ (∃ r, start = limit ++ r)) →
        findShortestSeparator start limit = start) := by
  by_cases hcase :
      min start.length limit.length ≤ commonPrefixLen start limit
  · have hres : findShortestSeparator start limit = start := by
      simp [findShortestSeparator, hcase]
    rw [hres]
    exact ⟨⟨le_of_eq (bw_self start), hlt, le_refl _⟩, fun _ => rfl⟩
  · push_neg at hcase
    set d := commonPrefixLen start limit with hd
    have hds : d < start.length := lt_of_lt_of_le hcase (min_le_left _ _)
    have hdl : d < limit.length := lt_of_lt_of_le hcase (min_le_right _ _)
    have hsb : start.getD d 0 < 256 := isBytes_getD start hs d hds
    have hlb : limit.getD d 0 < 256 := isBytes_getD limit hl d hdl
    have hsmod : start.getD d 0 % 256 = start.getD d 0 := Nat.mod_eq_of_lt hsb
    have hlmod : limit.getD d 0 % 256 = limit.getD d 0 := Nat.mod_eq_of_lt hlb
    have hnotpre : ((∃ r, limit = start ++ r) ∨ (∃ r, start = limit ++ r)) → False := by
      rintro (⟨r, rfl⟩ | ⟨r, rfl⟩)
      · rw [cpl_append_right] at hd
        omega
      · rw [cpl_append_left] at hd
        simp at hdl
        omega
    by_cases hcond : start.getD d 0 % 256 < 0xff
        ∧ start.getD d 0 % 256 + 1 < limit.getD d 0 % 256
    · have hres : findShortestSeparator start limit
          = start.take d ++ [start.getD d 0 % 256 + 1] := by
        rw [findShortestSeparator]
        simp only [← hd]
        rw [if_neg (by omega), if_pos hcond]
      rw [hsmod] at hres
      obtain ⟨-, hc2⟩ := hcond
      rw [hsmod, hlmod] at hc2
      have htk : start.take d = limit.take d := by
        rw [hd]
        exact cpl_take start limit
      refine ⟨⟨?_, ?_, ?_⟩, fun hp => absurd hp hnotpre⟩
      · -- start <= result: the two agree on the first d bytes and at
        -- position d the result holds the incremented byte.
        have key1 : bytewiseCompare (start.take d ++ start.drop d)
            (start.take d ++ [start.getD d 0 + 1]) ≤ 0 := by
          rw [bw_append_left, List.drop_eq_getElem_cons hds,
            ← getD_eq_getElem start d hds]
          simp only [bytewiseCompare]
          rw [if_pos (by omega)]
          decide
        rw [hres]
        simpa only [List.take_append_drop] using key1
      · -- result < limit: the two agree on the first d bytes and at
        -- position d the limit byte is strictly larger.
        have key2 : bytewiseCompare (limit.take d ++ [start.getD d 0 + 1])
            (limit.take d ++ limit.drop d) < 0 := by
          rw [bw_append_left, List.drop_eq_getElem_cons hdl,
            ← getD_eq_getElem limit d hdl]
          simp only [bytewiseCompare]
          rw [if_pos hc2]
          decide
        rw [hres, htk]
        simpa only [List.take_append_drop] using key2
      · rw [hres]
        simp only [List.length_append, List.length_take, List.length_cons,
          List.length_nil]
        omega
    · have hres : findShortestSeparator start limit = start := by
        rw [findShortestSeparator]
        simp only [← hd]
        rw [if_neg (by omega), if_neg hcond]
      rw [hres]
      exact ⟨⟨le_of_eq (bw_self start), hlt, le_refl _⟩, fun _ => rfl⟩

/-- C5 witness: the theorem applied to start = "helloworld" and
limit = "hellozebra". -/
theorem findShortestSeparator_spec_witness :
    (bytewiseCompare [104, 101, 108, 108, 111, 119, 111, 114, 108, 100]
        (findShortestSeparator [104, 101, 108, 108, 111, 119, 111, 114, 108, 100]
          [104, 101, 108, 108, 111, 122, 101, 98, 114, 97]) ≤ 0
     ∧ bytewiseCompare
         (findShortestSeparator [104, 101, 108, 108, 111, 119, 111, 114, 108, 100]
           [104, 101, 108, 108, 111, 122, 101, 98, 114, 97])
         [104, 101, 108, 108, 111, 122, 101, 98, 114, 97] < 0
     ∧ (findShortestSeparator [104, 101, 108, 108, 111, 119, 111, 114, 108, 100]
         [104, 101, 108, 108, 111, 122, 101, 98, 114, 97]).length
         ≤ ([104, 101, 108, 108, 111, 119, 111, 114, 108, 100] : List Nat).length)
    ∧ (((∃ r, [104, 101, 108, 108, 111, 122, 101, 98, 114, 97]
          = [104, 101, 108, 108, 111, 119, 111, 114, 108, 100] ++ r)
        ∨ (∃ r, [104, 101, 108, 108, 111, 119, 111, 114, 108, 100]
            = [104, 101, 108, 108, 111, 122, 101, 98, 114, 97] ++ r)) →
        findShortestSeparator [104, 101, 108, 108, 111, 119, 111, 114, 108, 100]
          [104, 101, 108, 108, 111, 122, 101, 98, 114, 97]
          = [104, 101, 108, 108, 111, 119, 111, 114, 108, 100]) :=
  findShortestSeparator_spec _ _ (by decide) (by decide) (by decide)

end LevelDB

namespace LevelDB

/-- C2: Encoding a triple (k, s, t) with s below 2^56 and t a defined
operation code and then decoding it succeeds and returns exactly the same
triple, and the encoded string has length len(k) + 8. -/
theorem appendInternalKey_parse_roundtrip (k : List Nat) (s t : Nat)
    (old : ParsedInternalKey) (hs : s ≤ 2 ^ 56 - 1) (ht : t ≤ kTypeValue) :
    parseInternalKey (appendInternalKey [] ⟨k, s, t⟩) old = (true, ⟨k, s, t⟩)
    ∧ (appendInternalKey [] ⟨k, s, t⟩).length = k.length + 8 := by
  have ht' : t < 2 ^ 8 := by
    simp only [kTypeValue] at ht
    omega
  have hw : (s <<< 8) ||| t = 2 ^ 8 * s + t := shiftLeft_or_eq_add s t ht'
  have hlen : (appendInternalKey [] ⟨k, s, t⟩).length = k.length + 8 := by
    simp [appendInternalKey, putFixed64]
  have hdrop : (appendInternalKey [] ⟨k, s, t⟩).drop (k.length + 8 - 8)
      = putFixed64 ((s <<< 8) ||| t) := by
    simp only [appendInternalKey, List.nil_append, Nat.add_sub_cancel]
    exact List.drop_left k _
  have htake : (appendInternalKey [] ⟨k, s, t⟩).take (k.length + 8 - 8) = k := by
    simp only [appendInternalKey, List.nil_append, Nat.add_sub_cancel]
    exact List.take_left k _
  have hword : decodeFixed64 (putFixed64 ((s <<< 8) ||| t)) = 2 ^ 8 * s + t := by
    rw [decode_put, hw]
    have hlt : 2 ^ 8 * s + t < 2 ^ 64 := by omega
    omega
  have hc : (2 ^ 8 * s + t) &&& 0xff = t := by
    rw [word_and_255]
    omega
  have hseq : (2 ^ 8 * s + t) >>> 8 = s := by
    rw [Nat.shiftRight_eq_div_pow]
    omega
  refine ⟨?_, hlen⟩
  simp only [parseInternalKey, hlen, hdrop, htake, hword, hc, hseq]
  rw [if_neg (by omega)]
  simp only [Prod.mk.injEq]
  constructor
  · simp only [decide_eq_true_eq]
    simp only [kTypeValue] at ht ⊢
    exact ht
  · trivial

/-- C2 witness: the theorem applied to user key "bar", sequence 42,
operation kTypeValue. -/
theorem appendInternalKey_parse_roundtrip_witness :
    parseInternalKey (appendInternalKey [] ⟨[98, 97, 114], 42, 1⟩) ⟨[], 0, 0⟩
        = (true, ⟨[98, 97, 114], 42, 1⟩)
    ∧ (appendInternalKey [] ⟨[98, 97, 114], 42, 1⟩).length
        = ([98, 97, 114] : List Nat).length + 8 :=
  appendInternalKey_parse_roundtrip [98, 97, 114] 42 1 ⟨[], 0, 0⟩
    (by decide) (by decide)

/-- C3: ParseInternalKey returns false on every input shorter than eight
bytes; on inputs of length at least eight, with word the little-endian
value of the trailing eight bytes and c its low byte, it returns true
exactly when c is at most kTypeValue, and on success the result holds
sequence word >>> 8, type c, and the user-key prefix. -/
theorem parseInternalKey_spec (inp : List Nat) (old : ParsedInternalKey)
    (_hb : isBytes inp) :
    (inp.length < 8 → parseInternalKey inp old = (false, old))
    ∧ (8 ≤ inp.length →
        ((parseInternalKey inp old).1 = true ↔
            decodeFixed64 (inp.drop (inp.length - 8)) &&& 0xff ≤ kTypeValue)
        ∧ (decodeFixed64 (inp.drop (inp.length - 8)) &&& 0xff ≤ kTypeValue →
            (parseInternalKey inp old).2
              = ⟨inp.take (inp.length - 8),
                 decodeFixed64 (inp.drop (inp.length - 8)) >>> 8,
                 decodeFixed64 (inp.drop (inp.length - 8)) &&& 0xff⟩)) := by
  constructor
  · intro h
    simp [parseInternalKey, h]
  · intro h8
    simp only [parseInternalKey]
    rw [if_neg (by omega)]
    refine ⟨by simp, fun _ => rfl⟩

/-- C3 witness: the theorem applied to the 9-byte input with user key
0x61 and trailing word 1 (sequence 0, type kTypeValue). -/
theorem parseInternalKey_spec_witness :
    (([97, 1, 0, 0, 0, 0, 0, 0, 0] : List Nat).length < 8 →
       parseInternalKey [97, 1, 0, 0, 0, 0, 0, 0, 0] ⟨[], 0, 0⟩
         = (false, ⟨[], 0, 0⟩))
    ∧ (8 ≤ ([97, 1, 0, 0, 0, 0, 0, 0, 0] : List Nat).length →
        ((parseInternalKey [97, 1, 0, 0, 0, 0, 0, 0, 0] ⟨[], 0, 0⟩).1 = true ↔
            decodeFixed64 (([97, 1, 0, 0, 0, 0, 0, 0, 0] : List Nat).drop
                (([97, 1, 0, 0, 0, 0, 0, 0, 0] : List Nat).length - 8)) &&& 0xff
              ≤ kTypeValue)
        ∧ (decodeFixed64 (([97, 1, 0, 0, 0, 0, 0, 0, 0] : List Nat).drop
              (([97, 1, 0, 0, 0, 0, 0, 0, 0] : List Nat).length - 8)) &&& 0xff
              ≤ kTypeValue →
            (parseInternalKey [97, 1, 0, 0, 0, 0, 0, 0, 0] ⟨[], 0, 0⟩).2
              = ⟨([97, 1, 0, 0, 0, 0, 0, 0, 0] : List Nat).take
                   (([97, 1, 0, 0, 0, 0, 0, 0, 0] : List Nat).length - 8),
                 decodeFixed64 (([97, 1, 0, 0, 0, 0, 0, 0, 0] : List Nat).drop
                   (([97, 1, 0, 0, 0, 0, 0, 0, 0] : List Nat).length - 8)) >>> 8,
                 decodeFixed64 (([97, 1, 0, 0, 0, 0, 0, 0, 0] : List Nat).drop
                   (([97, 1, 0, 0, 0, 0, 0, 0, 0] : List Nat).length - 8)) &&& 0xff⟩)) :=
  parseInternalKey_spec [97, 1, 0, 0, 0, 0, 0, 0, 0] ⟨[], 0, 0⟩ (by decide)

/-- C10: On an input of length at least eight whose trailing word has a
low byte exceeding kTypeValue, ParseInternalKey returns false yet has
already overwritten the result record with the decoded fields, so failure
is not atomic with respect to the output parameter. -/
theorem parseInternalKey_writes_result_on_bad_tag (inp : List Nat)
    (old : ParsedInternalKey) (_hb : isBytes inp) (h8 : 8 ≤ inp.length)
    (hc : kTypeValue < decodeFixed64 (inp.drop (inp.length - 8)) &&& 0xff) :
    parseInternalKey inp old
      = (false,
         ⟨inp.take (inp.length - 8),
          decodeFixed64 (inp.drop (inp.length - 8)) >>> 8,
          decodeFixed64 (inp.drop (inp.length - 8)) &&& 0xff⟩) := by
  simp only [parseInternalKey]
  rw [if_neg (by omega)]
  simp only [Prod.mk.injEq]
  refine ⟨?_, trivial⟩
  simp only [decide_eq_false_iff_not]
  omega

/-- C10 witness: the theorem applied to the 8-byte input whose trailing
word is 2, an undefined operation code; the result record is overwritten
with user key [], sequence 0 and type 2 although false is returned. -/
theorem parseInternalKey_writes_result_on_bad_tag_witness :
    parseInternalKey [2, 0, 0, 0, 0, 0, 0, 0] ⟨[9], 7, 7⟩
      = (false,
         ⟨([2, 0, 0, 0, 0, 0, 0, 0] : List Nat).take
            (([2, 0, 0, 0, 0, 0, 0, 0] : List Nat).length - 8),
          decodeFixed64 (([2, 0, 0, 0, 0, 0, 0, 0] : List Nat).drop
            (([2, 0, 0, 0, 0, 0, 0, 0] : List Nat).length - 8)) >>> 8,
          decodeFixed64 (([2, 0, 0, 0, 0, 0, 0, 0] : List Nat).drop
            (([2, 0, 0, 0, 0, 0, 0, 0] : List Nat).length - 8)) &&& 0xff⟩) :=
  parseInternalKey_writes_result_on_bad_tag [2, 0, 0, 0, 0, 0, 0, 0] ⟨[9], 7, 7⟩
    (by decide) (by decide) (by decide)

/-- C4 counterexample: DecodeFrom on the one-byte input [1] reports
success (true) although the resulting representation has length 1 < 8,
violating the claimed invariant. -/
theorem internalKeyDecodeFrom_counterexample :
    (internalKeyDecodeFrom [1]).2 = true
    ∧ (internalKeyDecodeFrom [1]).1.length < 8 := by
  decide

/-- C4 (amended): the (user_key, sequence, type) constructor and SetFrom
establish the invariant — length at least 8, trailing eight bytes the tag
word, prefix the user key — while DecodeFrom merely copies its input and
reports true exactly on nonempty input, so it establishes the invariant
only when the input itself is at least eight bytes long. -/
theorem internalKey_invariant_amended (uk : List Nat) (s t : Nat)
    (p : ParsedInternalKey) (rep inp : List Nat) :
    (8 ≤ (internalKeyMk uk s t).length
      ∧ (internalKeyMk uk s t).take uk.length = uk
      ∧ (internalKeyMk uk s t).drop uk.length = putFixed64 ((s <<< 8) ||| t))
    ∧ (8 ≤ (internalKeySetFrom rep p).length
      ∧ (internalKeySetFrom rep p).take p.user_key.length = p.user_key
      ∧ (internalKeySetFrom rep p).drop p.user_key.length
          = putFixed64 ((p.sequence <<< 8) ||| p.type))
    ∧ ((internalKeyDecodeFrom inp).2 = true ↔ inp ≠ [])
    ∧ (internalKeyDecodeFrom inp).1 = inp
    ∧ (8 ≤ inp.length → 8 ≤ (internalKeyDecodeFrom inp).1.length) := by
  refine ⟨⟨?_, ?_, ?_⟩, ⟨?_, ?_, ?_⟩, ?_, rfl, fun h => h⟩
  · simp [internalKeyMk, appendInternalKey, putFixed64]
  · simp only [internalKeyMk, appendInternalKey, List.nil_append]
    exact List.take_left uk _
  · simp only [internalKeyMk, appendInternalKey, List.nil_append]
    exact List.drop_left uk _
  · simp [internalKeySetFrom, appendInternalKey, putFixed64]
  · simp only [internalKeySetFrom, appendInternalKey, List.nil_append]
    exact List.take_left p.user_key _
  · simp only [internalKeySetFrom, appendInternalKey, List.nil_append]
    exact List.drop_left p.user_key _
  · simp [internalKeyDecodeFrom]

/-- C4 witness: the amended theorem applied to user key 0x62 0x61 0x72,
sequence 1, type 1, and DecodeFrom input of length 9. -/
theorem internalKey_invariant_amended_witness :
    (8 ≤ (internalKeyMk [98, 97, 114] 1 1).length
      ∧ (internalKeyMk [98, 97, 114] 1 1).take ([98, 97, 114] : List Nat).length
          = [98, 97, 114]
      ∧ (internalKeyMk [98, 97, 114] 1 1).drop ([98, 97, 114] : List Nat).length
          = putFixed64 ((1 <<< 8) ||| 1))
    ∧ (8 ≤ (internalKeySetFrom [] ⟨[98, 97, 114], 1, 1⟩).length
      ∧ (internalKeySetFrom [] ⟨[98, 97, 114], 1, 1⟩).take
           (ParsedInternalKey.mk [98, 97, 114] 1 1).user_key.length
          = (ParsedInternalKey.mk [98, 97, 114] 1 1).user_key
      ∧ (internalKeySetFrom [] ⟨[98, 97, 114], 1, 1⟩).drop
           (ParsedInternalKey.mk [98, 97, 114] 1 1).user_key.length
          = putFixed64 (((ParsedInternalKey.mk [98, 97, 114] 1 1).sequence <<< 8)
              ||| (ParsedInternalKey.mk [98, 97, 114] 1 1).type))
    ∧ ((internalKeyDecodeFrom [9, 8, 7, 6, 5, 4, 3, 2, 1]).2 = true ↔
        ([9, 8, 7, 6, 5, 4, 3, 2, 1] : List Nat) ≠ [])
    ∧ (internalKeyDecodeFrom [9, 8, 7, 6, 5, 4, 3, 2, 1]).1
        = [9, 8, 7, 6, 5, 4, 3, 2, 1]
    ∧ (8 ≤ ([9, 8, 7, 6, 5, 4, 3, 2, 1] : List Nat).length →
        8 ≤ (internalKeyDecodeFrom [9, 8, 7, 6, 5, 4, 3, 2, 1]).1.length) :=
  internalKey_invariant_amended [98, 97, 114] 1 1 ⟨[98, 97, 114], 1, 1⟩ []
    [9, 8, 7, 6, 5, 4, 3, 2, 1]

end LevelDB

namespace LevelDB

/-- C8: In any arena state, for any request size, if the required
alignment is a power of two (the static_assert of the code) and every
block handed out by the system allocator is naturally aligned, then the
address returned by AllocateAligned is a multiple of the alignment — the
assertion at the end of AllocateAligned never fails. -/
theorem allocateAligned_aligned (ptrSize : Nat) (st : ArenaState)
    (bytes newAddr : Nat) (hpow : ∃ k, alignOf ptrSize = 2 ^ k)
    (hnew : newAddr % alignOf ptrSize = 0) :
    (allocateAligned ptrSize st bytes newAddr).1 % alignOf ptrSize = 0 := by
  obtain ⟨k, hk⟩ := hpow
  have hkpos : 0 < alignOf ptrSize := by
    rw [hk]
    exact Nat.pos_pow_of_pos k (by omega)
  simp only [allocateAligned]
  have hmod : st.alloc_ptr &&& (alignOf ptrSize - 1)
      = st.alloc_ptr % alignOf ptrSize := by
    rw [hk]
    exact Nat.and_pow_two_sub_one_eq_mod st.alloc_ptr k
  rw [hmod]
  split_ifs with hzero hfit hfit
  · -- the bump pointer is already aligned and the request fits
    simpa [Nat.add_zero] using hzero
  · -- the request does not fit: the fallback returns a fresh block start
    simp only [allocateFallback, allocateNewBlock]
    split_ifs <;> exact hnew
  · -- padding brings the pointer up to the next multiple of the alignment
    have hmlt : st.alloc_ptr % alignOf ptrSize < alignOf ptrSize :=
      Nat.mod_lt _ hkpos
    have hdm := Nat.div_add_mod st.alloc_ptr (alignOf ptrSize)
    have hstep : st.alloc_ptr + (alignOf ptrSize - st.alloc_ptr % alignOf ptrSize)
        = alignOf ptrSize * (st.alloc_ptr / alignOf ptrSize + 1) := by
      rw [Nat.mul_add, Nat.mul_one]
      omega
    rw [hstep, Nat.mul_comm]
    exact Nat.mul_mod_left _ _
  · simp only [allocateFallback, allocateNewBlock]
    split_ifs <;> exact hnew

/-- C8 witness: the theorem applied on a 64-bit platform (ptrSize 8,
alignment 8) to a state with a misaligned bump pointer and an aligned
fresh block address. -/
theorem allocateAligned_aligned_witness :
    (allocateAligned 8 ⟨101, 500, [(0, 4096)], 4104⟩ 5 8192).1 % alignOf 8 = 0 :=
  allocateAligned_aligned 8 ⟨101, 500, [(0, 4096)], 4104⟩ 5 8192
    ⟨3, by decide⟩ (by decide)

/-- C9: When an allocation falls back, a request larger than a quarter of
the standard block size gets a dedicated block of exactly that many
bytes, returned whole, with the current-block cursor fields untouched;
a smaller request gets a fresh standard 4096-byte block that becomes the
current block with the request carved off its front, leaving
kBlockSize - n bytes remaining. -/
theorem allocateFallback_spec (ptrSize : Nat) (st : ArenaState)
    (n newAddr : Nat) :
    (kBlockSize / 4 < n →
       (allocateFallback ptrSize st n newAddr).1 = newAddr
       ∧ (allocateFallback ptrSize st n newAddr).2.blocks
           = st.blocks ++ [(newAddr, n)]
       ∧ (allocateFallback ptrSize st n newAddr).2.alloc_ptr = st.alloc_ptr
       ∧ (allocateFallback ptrSize st n newAddr).2.alloc_bytes_remaining
           = st.alloc_bytes_remaining)
    ∧ (n ≤ kBlockSize / 4 →
       (allocateFallback ptrSize st n newAddr).1 = newAddr
       ∧ (allocateFallback ptrSize st n newAddr).2.blocks
           = st.blocks ++ [(newAddr, kBlockSize)]
       ∧ (allocateFallback ptrSize st n newAddr).2.alloc_ptr = newAddr + n
       ∧ (allocateFallback ptrSize st n newAddr).2.alloc_bytes_remaining
           = kBlockSize - n) := by
  constructor
  · intro h
    simp [allocateFallback, allocateNewBlock, h]
  · intro h
    have h' : ¬kBlockSize / 4 < n := by omega
    simp [allocateFallback, allocateNewBlock, h']

/-- C9 witness: the theorem applied to a 2000-byte oversized request (the
dedicated-block branch, quarter block is 1024 bytes) in a state with a
live current block. -/
theorem allocateFallback_spec_witness :
    (kBlockSize / 4 < 2000 →
       (allocateFallback 8 ⟨100, 50, [(0, 4096)], 4104⟩ 2000 8192).1 = 8192
       ∧ (allocateFallback 8 ⟨100, 50, [(0, 4096)], 4104⟩ 2000 8192).2.blocks
           = ([(0, 4096)] : List (Nat × Nat)) ++ [(8192, 2000)]
       ∧ (allocateFallback 8 ⟨100, 50, [(0, 4096)], 4104⟩ 2000 8192).2.alloc_ptr
           = 100
       ∧ (allocateFallback 8 ⟨100, 50, [(0, 4096)], 4104⟩
             2000 8192).2.alloc_bytes_remaining = 50)
    ∧ (2000 ≤ kBlockSize / 4 →
       (allocateFallback 8 ⟨100, 50, [(0, 4096)], 4104⟩ 2000 8192).1 = 8192
       ∧ (allocateFallback 8 ⟨100, 50, [(0, 4096)], 4104⟩ 2000 8192).2.blocks
           = ([(0, 4096)] : List (Nat × Nat)) ++ [(8192, kBlockSize)]
       ∧ (allocateFallback 8 ⟨100, 50, [(0, 4096)], 4104⟩ 2000 8192).2.alloc_ptr
           = 8192 + 2000
       ∧ (allocateFallback 8 ⟨100, 50, [(0, 4096)], 4104⟩
             2000 8192).2.alloc_bytes_remaining = kBlockSize - 2000) :=
  allocateFallback_spec 8 ⟨100, 50, [(0, 4096)], 4104⟩ 2000 8192

end LevelDB

namespace LevelDB

/-! ### Claim theorems -/

/-- C1: For all valid internal keys a, b, c the internal-key comparator is a
strict total order — transitive, antisymmetric, with comparison 0 exactly on
equal keys — in which keys are ordered first by the user comparator on their
user-key portions, and ties on the user key are broken by sequence number
descending, then by operation tag descending. -/
theorem internalCompare_strictTotalOrder (a b c : List Nat)
    (ha : validKey a) (hb : validKey b) (_hc : validKey c) :
    (internalCompare a b < 0 → internalCompare b c < 0 →
       internalCompare a c < 0)
    ∧ internalCompare b a = -internalCompare a b
    ∧ (internalCompare a b = 0 ↔ a = b)
    ∧ (internalCompare a b < 0 ↔
        (bytewiseCompare (extractUserKey a) (extractUserKey b) < 0
         ∨ (extractUserKey a = extractUserKey b
            ∧ (seqOf b < seqOf a
               ∨ (seqOf a = seqOf b ∧ tagOf b < tagOf a))))) := by
  refine ⟨?_, ic_neg a b, ?_, ic_lt_iff a b⟩
  · intro h1 h2
    rw [ic_lt_iff] at h1 h2 ⊢
    rcases h1 with h1 | ⟨e1, l1⟩
    · rcases h2 with h2 | ⟨e2, l2⟩
      · exact Or.inl (bw_trans _ _ _ h1 h2)
      · refine Or.inl ?_
        rw [← e2]
        exact h1
    · rcases h2 with h2 | ⟨e2, l2⟩
      · refine Or.inl ?_
        rw [e1]
        exact h2
      · exact Or.inr ⟨e1.trans e2, by omega⟩
  · rw [ic_zero_iff]
    constructor
    · rintro ⟨huk, hseq, htag⟩
      exact key_ext a b ha hb huk hseq htag
    · rintro rfl
      exact ⟨rfl, rfl, rfl⟩

/-- C1 witness: the theorem applied to three concrete valid internal keys. -/
theorem internalCompare_strictTotalOrder_witness :
    (internalCompare [3, 0, 0, 0, 0, 0, 0, 0, 1] [3, 0, 0, 0, 0, 0, 0, 0, 0] < 0 →
       internalCompare [3, 0, 0, 0, 0, 0, 0, 0, 0] [4, 0, 0, 0, 0, 0, 0, 0, 0] < 0 →
       internalCompare [3, 0, 0, 0, 0, 0, 0, 0, 1] [4, 0, 0, 0, 0, 0, 0, 0, 0] < 0)
    ∧ internalCompare [3, 0, 0, 0, 0, 0, 0, 0, 0] [3, 0, 0, 0, 0, 0, 0, 0, 1]
        = -internalCompare [3, 0, 0, 0, 0, 0, 0, 0, 1] [3, 0, 0, 0, 0, 0, 0, 0, 0]
    ∧ (internalCompare [3, 0, 0, 0, 0, 0, 0, 0, 1] [3, 0, 0, 0, 0, 0, 0, 0, 0] = 0 ↔
        [3, 0, 0, 0, 0, 0, 0, 0, 1] = [3, 0, 0, 0, 0, 0, 0, 0, 0])
    ∧ (internalCompare [3, 0, 0, 0, 0, 0, 0, 0, 1] [3, 0, 0, 0, 0, 0, 0, 0, 0] < 0 ↔
        (bytewiseCompare (extractUserKey [3, 0, 0, 0, 0, 0, 0, 0, 1])
            (extractUserKey [3, 0, 0, 0, 0, 0, 0, 0, 0]) < 0
         ∨ (extractUserKey [3, 0, 0, 0, 0, 0, 0, 0, 1]
              = extractUserKey [3, 0, 0, 0, 0, 0, 0, 0, 0]
            ∧ (seqOf [3, 0, 0, 0, 0, 0, 0, 0, 0] < seqOf [3, 0, 0, 0, 0, 0, 0, 0, 1]
               ∨ (seqOf [3, 0, 0, 0, 0, 0, 0, 0, 1] = seqOf [3, 0, 0, 0, 0, 0, 0, 0, 0]
                  ∧ tagOf [3, 0, 0, 0, 0, 0, 0, 0, 0]
                      < tagOf [3, 0, 0, 0, 0, 0, 0, 0, 1]))))) :=
  internalCompare_strictTotalOrder _ _ _ (by decide) (by decide) (by decide)

/-- C6: For every byte-string key containing a byte other than 0xff,
FindShortSuccessor produces a strictly greater, no-longer key obtained by
incrementing the first byte that is not 0xff and truncating after it; a key
whose bytes are all 0xff (including the empty key) is left unchanged. -/
theorem findShortSuccessor_spec (key : List Nat) (hk : isBytes key) :
    ((∃ b ∈ key, b ≠ 255) →
       bytewiseCompare key (findShortSuccessor key) < 0
       ∧ (findShortSuccessor key).length ≤ key.length
       ∧ findShortSuccessor key
           = key.takeWhile (fun b => b == 255)
             ++ [(key.dropWhile (fun b => b == 255)).headD 0 + 1])
    ∧ ((∀ b ∈ key, b = 255) → findShortSuccessor key = key) := by
  induction key with
  | nil =>
    refine ⟨fun hx => ?_, fun _ => rfl⟩
    simp at hx
  | cons b rest ih =>
    have hb : b < 256 := hk b (List.mem_cons_self b rest)
    have hkr : isBytes rest := fun x hx => hk x (List.mem_cons_of_mem b hx)
    obtain ⟨ih1, ih2⟩ := ih hkr
    by_cases hff : b = 255
    · subst hff
      constructor
      · intro hex
        have hex' : ∃ x ∈ rest, x ≠ 255 := by
          rcases hex with ⟨x, hx, hne⟩
          rcases List.mem_cons.mp hx with rfl | hx'
          · exact absurd rfl hne
          · exact ⟨x, hx', hne⟩
        obtain ⟨hlt, hlen, heq⟩ := ih1 hex'
        have hstep : findShortSuccessor (255 :: rest)
            = 255 :: findShortSuccessor rest := by
          simp [findShortSuccessor]
        refine ⟨?_, ?_, ?_⟩
        · rw [hstep]
          simp only [bytewiseCompare, lt_self_iff_false, if_false]
          exact hlt
        · rw [hstep]
          simpa using hlen
        · rw [hstep, heq]
          simp
      · intro hall
        have : findShortSuccessor rest = rest :=
          ih2 fun x hx => hall x (List.mem_cons_of_mem 255 hx)
        simp [findShortSuccessor, this]
    · have hmod : b % 256 = b := Nat.mod_eq_of_lt hb
      have hstep : findShortSuccessor (b :: rest) = [b + 1] := by
        simp [findShortSuccessor, hmod, hff]
      constructor
      · intro _
        refine ⟨?_, ?_, ?_⟩
        · rw [hstep]
          simp only [bytewiseCompare]
          rw [if_pos (by omega)]
          decide
        · rw [hstep]
          simp
        · rw [hstep]
          have : (b == 255) = false := by
            simp [hff]
          simp [List.takeWhile_cons, List.dropWhile_cons, this]
      · intro hall
        exact absurd (hall b (List.mem_cons_self b rest)) hff

/-- C6 witness: the theorem applied to the concrete key 0x61 0xff. -/
theorem findShortSuccessor_spec_witness :
    ((∃ b ∈ [97, 255], b ≠ 255) →
       bytewiseCompare [97, 255] (findShortSuccessor [97, 255]) < 0
       ∧ (findShortSuccessor [97, 255]).length ≤ ([97, 255] : List Nat).length
       ∧ findShortSuccessor [97, 255]
           = ([97, 255] : List Nat).takeWhile (fun b => b == 255)
             ++ [(([97, 255] : List Nat).dropWhile (fun b => b == 255)).headD 0 + 1])
    ∧ ((∀ b ∈ [97, 255], b = 255) → findShortSuccessor [97, 255] = [97, 255]) :=
  findShortSuccessor_spec [97, 255] (by decide)

/-- C7 counterexample: on the key "ab\xff\xff" the code increments the
first byte 'a' (it is already not 0xff) and truncates, so the result is
"b", not the claimed "ac". -/
theorem findShortSuccessor_ab_counterexample :
    findShortSuccessor [97, 98, 255, 255] = [98]
    ∧ findShortSuccessor [97, 98, 255, 255] ≠ [97, 99] := by
  decide

/-- C7 (amended): FindShortSuccessor applied to the four-byte key
"ab\xff\xff" yields the one-byte result "b". -/
theorem findShortSuccessor_ab_amended :
    findShortSuccessor [97, 98, 255, 255] = [98] := by
  decide

end LevelDB
